import Mathlib

/-!
Verification of the mandopop dictionary pipeline.

JavaScript strings are modelled as `List Char`; a JS string value `s` is
written `"s".data`.  JS `String.prototype.toLowerCase` is modelled on the
ASCII range (`Char.toLower`), which covers every character the claims and
counterexamples exercise.  Where JS string length (UTF-16 code units)
differs from the number of code points, the model uses an explicit
`jsLen` that counts astral characters twice, as JS does.
-/

namespace Mandopop

/-- Characters the JS `\s` class / `trim` treat as whitespace (the ones
relevant to the model). -/
def isWs (c : Char) : Bool :=
  c == ' ' || c == '\t' || c == '\n' || c == '\r' || c == '\x0b' || c == '\x0c'

/-- JS `String.prototype.trim`: drop whitespace from both ends. -/
def trim (l : List Char) : List Char :=
  ((l.dropWhile (fun c => isWs c)).reverse.dropWhile (fun c => isWs c)).reverse

/-- `word.toLowerCase().trim()` — the "light cleaning" step of `normalizeWord`
(src/lib/normalize.js line 118). -/
def clean (l : List Char) : List Char :=
  trim (l.map Char.toLower)

/-- JS `s.split(/\s+/).filter(Boolean)` (src/lib/normalize.js line 123):
the whitespace-separated words of `s`, empty fragments dropped. -/
def splitWhitespace (l : List Char) : List (List Char) :=
  let p := l.foldr
    (fun c (acc : List Char × List (List Char)) =>
      if isWs c then ([], if acc.1 = [] then acc.2 else acc.1 :: acc.2)
      else (c :: acc.1, acc.2))
    ([], [])
  if p.1 = [] then p.2 else p.1 :: p.2

/-- JS `s.split(' ')`: split on every single space, keeping empty pieces;
`"".split(' ')` is `[""]`. -/
def splitSp : List Char → List (List Char)
  | [] => [[]]
  | c :: rest =>
    match splitSp rest with
    | [] => [[]]
    | w :: ws => if c = ' ' then [] :: w :: ws else (c :: w) :: ws

/-- JS `arr.join(' ')`. -/
def joinSp : List (List Char) → List Char
  | [] => []
  | [w] => w
  | w :: ws => w ++ ' ' :: joinSp ws

/-- The trailing-punctuation class of `normalizeWord`: `[.,!?;:'"]`. -/
def isTrailPunct (c : Char) : Bool :=
  c == '.' || c == ',' || c == '!' || c == '?' || c == ';' || c == ':' ||
  c == '\'' || c == '\"'

/-- JS `cleaned.replace(/[.,!?;:'"]+$/, '')` (src/lib/normalize.js line 137). -/
def stripTrailingPunct (l : List Char) : List Char :=
  (l.reverse.dropWhile (fun c => isTrailPunct c)).reverse

/-- JS `w.endsWith(s)`. -/
def endsWithStr (l : List Char) (s : String) : Bool :=
  s.data.isSuffixOf l

/-- JS `w.slice(0, -n)` for `n ≥ 1`: all but the last `n` characters
(empty when `n ≥ length`, as in JS). -/
def dropN (l : List Char) (n : Nat) : List Char :=
  l.take (l.length - n)

/-- JS `base.length > 1 && base[base.length-1] === base[base.length-2]`:
the doubled-consonant test of `normalizeWord`. -/
def lastTwoEq (l : List Char) : Bool :=
  match l.reverse with
  | a :: b :: _ => a == b
  | _ => false

def MAX_SELECTION_LENGTH : Nat := 100

/-- `normalizeSingleWord` (src/lib/normalize.js lines 133–198): the input
word first, then every suffix rule's appends, in source order. -/
def normalizeSingleWord (w : List Char) : List (List Char) :=
  w ::
  ((if stripTrailingPunct w = w then [] else [stripTrailingPunct w]) ++
   (if endsWithStr w "ies" ∧ 4 < w.length then [dropN w 3 ++ ['y']] else []) ++
   (if endsWithStr w "s" ∧ 2 < w.length then
      [dropN w 1] ++
      (if endsWithStr w "es" ∧ 3 < w.length then [dropN w 2] else []) ++
      (if endsWithStr w "ses" ∨ endsWithStr w "zes" then [dropN w 2] else [])
    else []) ++
   (if endsWithStr w "ing" ∧ 4 < w.length then
      [dropN w 3, dropN w 3 ++ ['e']] ++
      (if lastTwoEq (dropN w 3) then [dropN (dropN w 3) 1] else [])
    else []) ++
   (if endsWithStr w "ed" ∧ 3 < w.length then
      [dropN w 2, dropN w 1] ++
      (if lastTwoEq (dropN w 2) then [dropN (dropN w 2) 1] else [])
    else []) ++
   (if endsWithStr w "er" ∧ 3 < w.length then
      [dropN w 2, dropN w 1] ++
      (if lastTwoEq (dropN w 2) then [dropN (dropN w 2) 1] else [])
    else []) ++
   (if endsWithStr w "est" ∧ 4 < w.length then [dropN w 3, dropN w 2] else []) ++
   (if endsWithStr w "ly" ∧ 3 < w.length then [dropN w 2] else []))

/-- `cartesian` (src/lib/normalize.js lines 200–212): nested-iteration
product joining pieces with single spaces, first list outermost. -/
def cartesian (arrays : List (List (List Char))) : List (List Char) :=
  match arrays with
  | [] => []
  | a0 :: rest =>
    rest.foldl
      (fun results vals =>
        results.flatMap (fun prev => vals.map (fun v => prev ++ ' ' :: v)))
      a0

/-- The later `normalizeWord` (src/lib/normalize.js lines 117–131), with
multi-word support. -/
def normalizeWord (word : List Char) : Option (List (List Char)) :=
  let cleaned := clean word
  if cleaned = [] ∨ MAX_SELECTION_LENGTH < cleaned.length then none
  else if ' ' ∈ cleaned then
    let words := splitWhitespace cleaned
    if words.length < 2 ∨ 3 < words.length then none
    else some ((cartesian (words.map normalizeSingleWord)).take 20)
  else some (normalizeSingleWord cleaned)

/-- The earlier `normalizeWord` (src/lib/normalize.js lines 14–82):
single-word only, suffix rules inlined exactly as in that version. -/
def normalizeWordV1 (word : List Char) : Option (List (List Char)) :=
  let cleaned := clean word
  if cleaned = [] ∨ MAX_SELECTION_LENGTH < cleaned.length then none
  else some (
    cleaned ::
    ((if stripTrailingPunct cleaned = cleaned then [] else [stripTrailingPunct cleaned]) ++
     (if endsWithStr cleaned "ies" ∧ 4 < cleaned.length then [dropN cleaned 3 ++ ['y']] else []) ++
     (if endsWithStr cleaned "s" ∧ 2 < cleaned.length then
        [dropN cleaned 1] ++
        (if endsWithStr cleaned "es" ∧ 3 < cleaned.length then [dropN cleaned 2] else []) ++
        (if endsWithStr cleaned "ses" ∨ endsWithStr cleaned "zes" then [dropN cleaned 2] else [])
      else []) ++
     (if endsWithStr cleaned "ing" ∧ 4 < cleaned.length then
        [dropN cleaned 3, dropN cleaned 3 ++ ['e']] ++
        (if lastTwoEq (dropN cleaned 3) then [dropN (dropN cleaned 3) 1] else [])
      else []) ++
     (if endsWithStr cleaned "ed" ∧ 3 < cleaned.length then
        [dropN cleaned 2, dropN cleaned 1] ++
        (if lastTwoEq (dropN cleaned 2) then [dropN (dropN cleaned 2) 1] else [])
      else []) ++
     (if endsWithStr cleaned "er" ∧ 3 < cleaned.length then
        [dropN cleaned 2, dropN cleaned 1] ++
        (if lastTwoEq (dropN cleaned 2) then [dropN (dropN cleaned 2) 1] else [])
      else []) ++
     (if endsWithStr cleaned "est" ∧ 4 < cleaned.length then [dropN cleaned 3, dropN cleaned 2] else []) ++
     (if endsWithStr cleaned "ly" ∧ 3 < cleaned.length then [dropN cleaned 2] else [])))

/-! ### Pinyin tone renderer (src/lib/pinyin.js lines 26–70) -/

/-- The tone digits `[1-5]` of the syllable-parsing regex. -/
def isToneDigit (c : Char) : Bool :=
  c == '1' || c == '2' || c == '3' || c == '4' || c == '5'

/-- `parseInt(tone) || 5` for a single captured tone digit. -/
def toneVal (c : Char) : Nat :=
  if c = '1' then 1 else if c = '2' then 2 else if c = '3' then 3
  else if c = '4' then 4 else 5

/-- The regex `^(.+?)([1-5])?$` applied to one syllable: when the syllable
has at least two characters and ends in a tone digit, the digit is split
off; otherwise the whole syllable is the base and the tone defaults to 5. -/
def splitTone (s : List Char) : List Char × Nat :=
  match s.getLast? with
  | some c => if 2 ≤ s.length ∧ isToneDigit c then (s.dropLast, toneVal c) else (s, 5)
  | none => ([], 5)

/-- `base.replace(/v/g, 'ü')`. -/
def vSub (l : List Char) : List Char :=
  l.map (fun c => if c = 'v' then 'ü' else c)

/-- The vowel class `'aeiouü'`. -/
def isVowel (c : Char) : Bool :=
  c == 'a' || c == 'e' || c == 'i' || c == 'o' || c == 'u' || c == 'ü'

/-- First index at which `p` holds (JS `indexOf` under an `includes` guard). -/
def firstIdx (p : Char → Bool) : List Char → Option Nat
  | [] => none
  | c :: rest => if p c then some 0 else (firstIdx p rest).map (· + 1)

/-- The downward scan `for (i = base.length - 1; i >= 0; i--)` for the last
vowel of the base. -/
def lastVowelIdx : List Char → Option Nat
  | [] => none
  | c :: rest =>
    match lastVowelIdx rest with
    | some j => some (j + 1)
    | none => if isVowel c then some 0 else none

/-- `base.includes('ou')`. -/
def containsOU : List Char → Bool
  | 'o' :: 'u' :: _ => true
  | _ :: rest => containsOU rest
  | [] => false

/-- The `toneMarks` table of src/lib/pinyin.js. -/
def toneTable (c : Char) : Option (List Char) :=
  if c = 'a' then some ['ā', 'á', 'ǎ', 'à', 'a']
  else if c = 'e' then some ['ē', 'é', 'ě', 'è', 'e']
  else if c = 'i' then some ['ī', 'í', 'ǐ', 'ì', 'i']
  else if c = 'o' then some ['ō', 'ó', 'ǒ', 'ò', 'o']
  else if c = 'u' then some ['ū', 'ú', 'ǔ', 'ù', 'u']
  else if c = 'ü' then some ['ǖ', 'ǘ', 'ǚ', 'ǜ', 'ü']
  else if c = 'v' then some ['ǖ', 'ǘ', 'ǚ', 'ǜ', 'ü']
  else none

/-- The vowel-selection block of `numberedToToneMarks`: first `a`, else
first `e`, else (if the base contains `ou`) the first `o`, else the last
vowel; `none` models `vowelIndex === -1`. -/
def vowelIndexOf (base : List Char) : Option Nat :=
  if 'a' ∈ base then firstIdx (fun c => c = 'a') base
  else if 'e' ∈ base then firstIdx (fun c => c = 'e') base
  else if containsOU base then firstIdx (fun c => c = 'o') base
  else lastVowelIdx base

/-- The per-syllable body of `numberedToToneMarks`. -/
def renderSyl (s : List Char) : List Char :=
  let bt := splitTone s
  let base := vSub bt.1
  match vowelIndexOf base with
  | none => base
  | some i =>
    if bt.2 = 5 then base
    else
      match toneTable (base.getD i ' ') with
      | some row => base.take i ++ row.getD (bt.2 - 1) ' ' :: base.drop (i + 1)
      | none => base

/-- `numberedToToneMarks` (src/lib/pinyin.js lines 26–70): split on single
spaces, render each syllable, re-join with single spaces.  This is the
spec's `renderTone`. -/
def numberedToToneMarks (pinyin : List Char) : List Char :=
  joinSp ((splitSp pinyin).map renderSyl)

/-! ### Phrase extraction (src/lib/pinyin.js lines 108–127) -/

/-- Scan forward for the first closing delimiter, returning the remainder
after it ( `[^)]*\)` of the annotation-stripping regexes). -/
def dropToClose (cl : Char) : List Char → Option (List Char)
  | [] => none
  | c :: rest => if c = cl then some rest else dropToClose cl rest

theorem dropToClose_length {cl : Char} :
    ∀ {l l' : List Char}, dropToClose cl l = some l' → l'.length < l.length := by
  intro l
  induction l with
  | nil => intro l' h; simp [dropToClose] at h
  | cons c rest ih =>
    intro l' h
    simp only [dropToClose] at h
    split at h
    · cases h; simp
    · exact Nat.lt_trans (ih h) (by simp)

/-- One global replace such as `s.replace(/\([^)]*\)/g, ' ')`: each span
from an opener to the next closer is replaced by a single space; an opener
with no later closer is left in place. -/
def stripDelim (op cl : Char) : List Char → List Char
  | [] => []
  | c :: rest =>
    if c = op then
      match h : dropToClose cl rest with
      | some rest' => ' ' :: stripDelim op cl rest'
      | none => c :: stripDelim op cl rest
    else c :: stripDelim op cl rest
termination_by l => l.length
decreasing_by
  · exact Nat.lt_trans (dropToClose_length h) (by simp)
  · simp
  · simp

/-- `s.replace(/\s+/g, ' ')`: collapse each whitespace run to one space. -/
def collapseWs (l : List Char) : List Char :=
  l.foldr
    (fun c acc =>
      if isWs c then
        match acc with
        | ' ' :: _ => acc
        | _ => ' ' :: acc
      else c :: acc)
    []

/-- The cleaning chain of `extractPhrases`: strip `(...)`, `[...]`, `{...}`
spans, collapse whitespace, trim, lowercase. -/
def cleanDef (d : List Char) : List Char :=
  (trim (collapseWs (stripDelim '{' '}' (stripDelim '[' ']' (stripDelim '(' ')' d))))).map Char.toLower

def isLowerAlpha (c : Char) : Bool := 'a' ≤ c && c ≤ 'z'

def phraseCharOK (c : Char) : Bool :=
  isLowerAlpha c || c == '-' || c == '\'' || c == ' '

/-- Tail of the regex `^[a-z][-'a-z ]*[a-z]$`: middle characters from the
allowed class, final character a lowercase letter. -/
def patTail : List Char → Bool
  | [] => false
  | [c] => isLowerAlpha c
  | c :: rest => phraseCharOK c && patTail rest

/-- The regex `^[a-z][-'a-z ]*[a-z]$` of `extractPhrases`. -/
def phrasePattern : List Char → Bool
  | [] => false
  | c :: rest => isLowerAlpha c && patTail rest

/-- The `stopWords` set of src/lib/pinyin.js. -/
def stopWordsL : List (List Char) :=
  ["a", "an", "the", "to", "of", "in", "on", "at", "for", "by", "with",
   "or", "and", "as", "is", "be", "it", "sb", "sth", "esp", "etc", "ie",
   "eg", "vs", "also", "see", "cf", "lit", "fig", "var", "abbr", "pr"].map String.data

/-- `extractPhrases` (src/lib/pinyin.js lines 108–127). -/
def extractPhrases (d : List Char) : List (List Char) :=
  let cleaned := cleanDef d
  if phrasePattern cleaned = false then []
  else
    let words := splitSp cleaned
    if words.length < 2 ∨ 3 < words.length then []
    else if words.headD [] ∈ stopWordsL ∨ words.getLastD [] ∈ stopWordsL then []
    else [cleaned]

/-! ### Dictionary compiler (scripts/preprocess_cedict.cjs, `processDict`) -/

/-- One compiled lexicon entry: simplified characters `s`, diacritic
pinyin `p`, gloss list `d` (the `{s, p, d}` objects of `processDict`). -/
structure Entry where
  s : String
  p : String
  d : List String
deriving DecidableEq

/-- JS string length: UTF-16 code units, so astral characters count 2. -/
def jsLen (s : String) : Nat :=
  (s.data.map (fun c => if 0x10000 ≤ c.toNat then 2 else 1)).sum

/-- The curated `commonWords` set of `processDict`. -/
def commonWords : List String :=
  ["的", "是", "不", "了", "在", "有", "人", "这", "我", "他",
   "你好", "谢谢", "再见", "对不起", "没关系", "请", "好", "是的", "不是",
   "银行", "电脑", "手机", "汽车", "飞机", "火车", "地铁", "公共汽车",
   "学校", "医院", "餐厅", "商店", "超市", "机场", "车站",
   "吃", "喝", "看", "听", "说", "读", "写", "走", "跑", "来", "去",
   "大", "小", "多", "少", "高", "低", "长", "短", "新", "旧",
   "钱", "时间", "工作", "学习", "朋友", "家", "书", "水", "茶", "咖啡"]

/-- `commonWords.has(a.s) ? 0 : 1`. -/
def commonPriority (e : Entry) : Nat :=
  if e.s ∈ commonWords then 0 else 1

/-- `a.s.length === 2 ? 0 : a.s.length === 1 ? 1 : 2` (JS lengths). -/
def lengthClass (e : Entry) : Nat :=
  if jsLen e.s = 2 then 0 else if jsLen e.s = 1 then 1 else 2

/-- `a.d.reduce((sum, d) => sum + d.length, 0)` (JS lengths). -/
def totalGlossLength (e : Entry) : Nat :=
  (e.d.map jsLen).sum

/-- The composite ranking key of the `processDict` comparator. -/
def rankKey (e : Entry) : Nat × Nat × Nat :=
  (commonPriority e, lengthClass e, totalGlossLength e)

/-- Lexicographic order on composite ranking keys: the sign discipline of
the `processDict` comparator. -/
def tripleLE (x y : Nat × Nat × Nat) : Bool :=
  decide (x.1 < y.1 ∨ (x.1 = y.1 ∧
    (x.2.1 < y.2.1 ∨ (x.2.1 = y.2.1 ∧ x.2.2 ≤ y.2.2))))

def entryLE (a b : Entry) : Bool :=
  tripleLE (rankKey a) (rankKey b)

/-- Per-key ranking of `processDict`: the ES2019-stable `Array.sort` with
a comparator consistent with `rankKey`, then truncation to 10 entries. -/
def rankEntries (l : List Entry) : List Entry :=
  (l.mergeSort entryLE).take 10

/-- Index keys are JS strings (`List Char`). -/
abbrev Key := List Char

/-- The English-keyed dictionary object, as an association list. -/
abbrev Index := List (Key × List Entry)

/-- The own data property of the dictionary object under `k`: the stored
entry list, if any.  A full JS property read also consults the object's
prototype when the own key is absent — that part is modelled by `jsGet`
below; `findKey` alone covers the reads of a completing `processDict` run,
whose probed keys never collide with `Object.prototype` (a colliding key
would crash the run, not produce an index). -/
def findKey (d : Index) (k : Key) : Option (List Entry) :=
  (d.find? (fun p => p.1 == k)).map (fun p => p.2)

/-- One key insertion of `processDict`: create `dict[word] = []` when
absent, then push `entry` unless an entry with the same
`(characters, pronunciation)` pair is already present. -/
def pushEntry : Index → Key → Entry → Index
  | [], k, e => [(k, [e])]
  | (k0, l0) :: rest, k, e =>
    if k0 = k then
      (if l0.any (fun x => x.s == e.s && x.p == e.p) then (k0, l0) :: rest
       else (k0, l0 ++ [e]) :: rest)
    else (k0, l0) :: pushEntry rest k e

/-- The collection phase of `processDict` over a stream of
`(key, entry)` insertions (every word key and phrase key of every parsed
lexicon line, in source order). -/
def buildIndex (ins : List (Key × Entry)) : Index :=
  ins.foldl (fun d p => pushEntry d p.1 p.2) []

/-- A full compiler run: collect, then rank and truncate each key's list. -/
def compileIndex (ins : List (Key × Entry)) : Index :=
  (buildIndex ins).map (fun p => (p.1, rankEntries p.2))

/-! ### Lookup resolver (src/lib/normalize.js lines 220–233) -/

/-- The own property names of `Object.prototype`.  The dictionary is a
plain object (from `response.json()` or its IndexedDB structured clone),
so a property read `dictionary[variant]` falls through to these when the
own key is absent; every one of them holds a truthy value (a built-in
function, or `Object.prototype` itself for `__proto__`). -/
def objectProtoProps : List Key :=
  ["constructor", "hasOwnProperty", "isPrototypeOf", "propertyIsEnumerable",
   "toLocaleString", "toString", "valueOf", "__defineGetter__",
   "__defineSetter__", "__lookupGetter__", "__lookupSetter__",
   "__proto__"].map String.data

/-- The possible results of the JS property read `dictionary[variant]`:
a stored entry array, a truthy value inherited from `Object.prototype`,
or `undefined`. -/
inductive PropRead where
  | arr (l : List Entry)
  | protoFn (name : Key)
  | undef
deriving DecidableEq

/-- The JS property read `dictionary[variant]` on the plain dictionary
object: the own data property when present, else the inherited
`Object.prototype` member when `k` names one, else `undefined`. -/
def jsGet (d : Index) (k : Key) : PropRead :=
  match findKey d k with
  | some l => PropRead.arr l
  | none => if k ∈ objectProtoProps then PropRead.protoFn k else PropRead.undef

/-- The probe loop of `lookup`: return the first truthy property read
(stored arrays — even empty ones — and inherited prototype members are
truthy; only `undefined` is skipped). -/
def firstTruthy : List Key → Index → Option PropRead
  | [], _ => none
  | v :: rest, d =>
    match jsGet d v with
    | PropRead.undef => firstTruthy rest d
    | pv => some pv

/-- `lookup(text, dictionary)` (src/lib/normalize.js lines 220–233); a
`none` dictionary models the JS `null`/undefined guard, and `none` as the
result models the JS `null` return. -/
def lookup (text : Key) (dictionary : Option Index) : Option PropRead :=
  match dictionary with
  | none => none
  | some d =>
    match normalizeWord text with
    | none => none
    | some variations => firstTruthy variations d

/-! ### Index load / cache manager (background.js: readCache, loadDictionary) -/

/-- The two-slot IndexedDB store: one slot for the version tag, one for
the serialized index; `none` models an absent slot. -/
structure CacheState where
  versionSlot : Option String
  dataSlot : Option Index
deriving DecidableEq

/-- `readCache` (background.js lines 37–63): a hit requires
`versionReq.result === getDictVersion() && dataReq.result`. -/
def readCache (currentVersion : String) (c : CacheState) : Option Index :=
  match c.versionSlot, c.dataSlot with
  | some v, some d => if v = currentVersion then some d else none
  | _, _ => none

/-- The cold-load path of `loadDictionary` (background.js lines 91–126):
use a valid cache hit, otherwise fall through to the fetched bundled
artifact (`none` models a failed fetch/parse). -/
def loadDictionary (currentVersion : String) (c : CacheState)
    (fetched : Option Index) : Option Index :=
  match readCache currentVersion c with
  | some cached => some cached
  | none => fetched

/-! ### Theorems -/

/-- C7: for every definition string, phrase extraction returns exactly one
phrase key — the whole cleaned definition — iff the cleaned string matches
the letter/hyphen/apostrophe/space pattern, splits on spaces into exactly
2 or 3 words, and neither boundary word is a stop word; in every other
case it returns the empty list. -/
theorem extractPhrases_exactly_one (d : List Char) :
    (extractPhrases d = [cleanDef d] ↔
      (phrasePattern (cleanDef d) = true
       ∧ (2 ≤ (splitSp (cleanDef d)).length ∧ (splitSp (cleanDef d)).length ≤ 3)
       ∧ ¬((splitSp (cleanDef d)).headD [] ∈ stopWordsL ∨
           (splitSp (cleanDef d)).getLastD [] ∈ stopWordsL)))
    ∧ (extractPhrases d = [] ∨ extractPhrases d = [cleanDef d]) := by
  unfold extractPhrases
  dsimp only
  constructor
  · constructor
    · intro h
      split at h
      · exact absurd h (by simp)
      · split at h
        · exact absurd h (by simp)
        · split at h
          · exact absurd h (by simp)
          · refine ⟨by simp_all [Bool.not_eq_false], by omega, by assumption⟩
    · rintro ⟨h1, h2, h3⟩
      rw [if_neg (by simp [h1]), if_neg (by omega), if_neg h3]
  · split
    · exact Or.inl rfl
    · split
      · exact Or.inl rfl
      · split
        · exact Or.inl rfl
        · exact Or.inr rfl

/-- C8: a cache load is a valid hit iff the stored version tag equals the
current version tag and the data slot is occupied; any mismatch or
absence — including a differing version tag with the data slot present —
is a miss, and the loader falls through to the fetched bundled artifact. -/
theorem cache_version_gate (ver : String) (c : CacheState) (fetched : Option Index)
    (hmiss : ¬(c.versionSlot = some ver ∧ c.dataSlot ≠ none)) :
    (readCache ver c = none ∧ loadDictionary ver c fetched = fetched)
    ∧ ∀ (v : String) (d0 : Index) (f : Option Index),
        readCache v ⟨some v, some d0⟩ = some d0 ∧
        loadDictionary v ⟨some v, some d0⟩ f = some d0 := by
  have hnone : readCache ver c = none := by
    rcases c with ⟨vs, ds⟩
    rcases vs with _ | v <;> rcases ds with _ | d0 <;> simp_all [readCache]
  refine ⟨⟨hnone, ?_⟩, ?_⟩
  · unfold loadDictionary
    rw [hnone]
  · intro v d0 f
    constructor <;> simp [readCache, loadDictionary]

/-- C8 witness: a stored version tag differing from the running version is
a miss even though the data slot is present, and the loader returns the
fetched artifact. -/
theorem cache_version_gate_witness :
    (readCache "1.1" ⟨some "1.0", some []⟩ = none ∧
     loadDictionary "1.1" ⟨some "1.0", some []⟩ (some [(['c'], [])]) = some [(['c'], [])])
    ∧ ∀ (v : String) (d0 : Index) (f : Option Index),
        readCache v ⟨some v, some d0⟩ = some d0 ∧
        loadDictionary v ⟨some v, some d0⟩ f = some d0 :=
  cache_version_gate "1.1" ⟨some "1.0", some []⟩ (some [(['c'], [])]) (by decide)

theorem splitSp_ne_nil : ∀ l : List Char, splitSp l ≠ []
  | [] => by simp [splitSp]
  | c :: rest => by
    simp only [splitSp]
    rcases h : splitSp rest with _ | ⟨w, ws⟩
    · simp
    · by_cases hc : c = ' ' <;> simp [hc]

theorem splitSp_no_space {w : List Char} (h : ' ' ∉ w) : splitSp w = [w] := by
  induction w with
  | nil => rfl
  | cons c rest ih =>
    have hc : c ≠ ' ' := fun hc => h (by simp [hc])
    have hr : splitSp rest = [rest] := ih (fun hm => h (by simp [hm]))
    simp [splitSp, hr, hc]

theorem splitSp_space_cons (t : List Char) : splitSp (' ' :: t) = [] :: splitSp t := by
  rcases h : splitSp t with _ | ⟨w, ws⟩
  · exact absurd h (splitSp_ne_nil t)
  · simp [splitSp, h]

theorem splitSp_append {w : List Char} (t : List Char) (h : ' ' ∉ w) :
    splitSp (w ++ ' ' :: t) = w :: splitSp t := by
  induction w with
  | nil => simpa using splitSp_space_cons t
  | cons c rest ih =>
    have hc : c ≠ ' ' := fun hc => h (by simp [hc])
    have hr := ih (fun hm => h (by simp [hm]))
    rw [List.cons_append]
    simp only [splitSp]
    rw [hr]
    simp [hc]

theorem joinSp_cons {ws : List (List Char)} (w : List Char) (h : ws ≠ []) :
    joinSp (w :: ws) = w ++ ' ' :: joinSp ws := by
  rcases ws with _ | ⟨w2, rest⟩
  · exact absurd rfl h
  · rfl

theorem splitSp_joinSp {ws : List (List Char)} (h0 : ws ≠ [])
    (h1 : ∀ w ∈ ws, ' ' ∉ w) : splitSp (joinSp ws) = ws := by
  induction ws with
  | nil => exact absurd rfl h0
  | cons w rest ih =>
    rcases rest with _ | ⟨w2, rest2⟩
    · exact splitSp_no_space (h1 w (by simp))
    · rw [joinSp_cons w (by simp),
        splitSp_append _ (h1 w (by simp)),
        ih (by simp) (fun x hx => h1 x (by simp [hx]))]

theorem numberedToToneMarks_single {w : List Char} (h : ' ' ∉ w) :
    numberedToToneMarks w = renderSyl w := by
  unfold numberedToToneMarks
  rw [splitSp_no_space h]
  rfl

/-- C9: multi-syllable rendering is a homomorphism over space-joined
syllables: rendering the single-space join of space-free syllables equals
the single-space join of the individually rendered syllables; in
particular `renderTone("ni3 hao3") = "nǐ hǎo"`. -/
theorem renderTone_syllablewise (ws : List (List Char)) (h0 : ws ≠ [])
    (h1 : ∀ w ∈ ws, ' ' ∉ w) :
    numberedToToneMarks (joinSp ws) = joinSp (ws.map numberedToToneMarks)
    ∧ numberedToToneMarks ("ni3 hao3".data) = "nǐ hǎo".data := by
  constructor
  · have hmap : ws.map numberedToToneMarks = ws.map renderSyl :=
      List.map_congr_left (fun w hw => numberedToToneMarks_single (h1 w hw))
    rw [hmap]
    unfold numberedToToneMarks
    rw [splitSp_joinSp h0 h1]
  · decide

/-- C9 witness: the homomorphism at the concrete pair of syllables
`ni3`, `hao3`. -/
theorem renderTone_syllablewise_witness :
    numberedToToneMarks (joinSp ["ni3".data, "hao3".data]) =
      joinSp (["ni3".data, "hao3".data].map numberedToToneMarks) :=
  (renderTone_syllablewise ["ni3".data, "hao3".data] (by decide) (by decide)).1

/-- C10: the two `normalizeWord` implementations in src/lib/normalize.js
agree on the single-word domain: whenever the lowercased, trimmed form of
the input contains no space, both return identical results. -/
theorem normalizeWord_versions_agree (w : List Char) (h : ' ' ∉ clean w) :
    normalizeWordV1 w = normalizeWord w := by
  simp only [normalizeWordV1, normalizeWord, normalizeSingleWord]
  by_cases hg : clean w = [] ∨ MAX_SELECTION_LENGTH < (clean w).length
  · rw [if_pos hg, if_pos hg]
  · rw [if_neg hg, if_neg hg, if_neg h]

/-- C10 witness: both versions at the selection `cats`. -/
theorem normalizeWord_versions_agree_witness :
    normalizeWordV1 ("cats".data) = normalizeWord ("cats".data) :=
  normalizeWord_versions_agree ("cats".data) (by decide)

/-- The concrete single-key index of the C1 end-to-end example. -/
def catIndex : Index := [("cat".data, [⟨"猫", "māo", ["cat"]⟩])]

/-- C1: the claim's no-match clause fails on the code.  `lookup` reads
`dictionary[variant]` on a plain object, so the read traverses the
prototype chain: for the selection `constructor` — not a stored key of
the cat-only index — it returns the inherited truthy
`Object.prototype.constructor` (a function, neither a stored entry list
nor null), contradicting both the claim and the function's own documented
`Array|null` contract.  The stemmed selection `constructors` reaches the
same value through its candidate `constructor`, while `xyzzy` still
yields no-match as the claim's example states. -/
theorem lookup_prototype_leak :
    lookup ("constructor".data) (some catIndex) =
      some (PropRead.protoFn ("constructor".data))
    ∧ lookup ("constructors".data) (some catIndex) =
      some (PropRead.protoFn ("constructor".data))
    ∧ (∀ p ∈ catIndex, p.1 ≠ ("constructor".data))
    ∧ (∀ l : List Entry,
        some (PropRead.protoFn ("constructor".data)) ≠ some (PropRead.arr l))
    ∧ lookup ("xyzzy".data) (some catIndex) = none := by
  refine ⟨by decide, by decide, by decide, fun l h => ?_, by decide⟩
  cases h

theorem cartesian_pair (a b : List (List Char)) :
    cartesian [a, b] = a.flatMap (fun x => b.map (fun y => x ++ ' ' :: y)) := rfl

theorem cartesian_triple (a b c : List (List Char)) :
    cartesian [a, b, c] =
      a.flatMap (fun x => b.flatMap (fun y => c.map (fun z => x ++ ' ' :: (y ++ ' ' :: z)))) := by
  show ((a.flatMap (fun x => b.map (fun y => x ++ ' ' :: y))).flatMap
        (fun p => c.map (fun z => p ++ ' ' :: z))) = _
  rw [List.flatMap_assoc]
  congr 1
  funext x
  rw [List.flatMap_map]
  congr 1
  funext y
  congr 1
  funext z
  simp

/-- C3 (amended with the source's 100-character cap): for a selection
whose cleaned form contains a space and is at most 100 characters long,
`normalizeWord` is invalid iff the whitespace word count is outside
[2, 3]; otherwise it returns the space-joined cartesian product of the
per-word candidate lists — first word varying slowest — truncated to 20
combinations. -/
theorem normalize_multiword_cases (w : List Char) (hsp : ' ' ∈ clean w)
    (hlen : (clean w).length ≤ MAX_SELECTION_LENGTH) :
    (normalizeWord w = none ↔
      ((splitWhitespace (clean w)).length < 2 ∨ 3 < (splitWhitespace (clean w)).length))
    ∧ (∀ w1 w2, splitWhitespace (clean w) = [w1, w2] →
        normalizeWord w = some
          (((normalizeSingleWord w1).flatMap
              (fun x => (normalizeSingleWord w2).map (fun y => x ++ ' ' :: y))).take 20))
    ∧ (∀ w1 w2 w3, splitWhitespace (clean w) = [w1, w2, w3] →
        normalizeWord w = some
          (((normalizeSingleWord w1).flatMap
              (fun x => (normalizeSingleWord w2).flatMap
                (fun y => (normalizeSingleWord w3).map
                  (fun z => x ++ ' ' :: (y ++ ' ' :: z))))).take 20)) := by
  have hne : clean w ≠ [] := fun h => by simp [h] at hsp
  have hguard : ¬(clean w = [] ∨ MAX_SELECTION_LENGTH < (clean w).length) := by
    push_neg
    exact ⟨hne, by omega⟩
  refine ⟨?_, ?_, ?_⟩
  · simp only [normalizeWord]
    rw [if_neg hguard, if_pos hsp]
    constructor
    · intro h
      by_contra hc
      rw [if_neg hc] at h
      cases h
    · intro h
      rw [if_pos h]
  · intro w1 w2 hsplit
    simp only [normalizeWord]
    rw [if_neg hguard, if_pos hsp, hsplit, if_neg (by simp)]
    rw [List.map_cons, List.map_cons, List.map_nil, cartesian_pair]
  · intro w1 w2 w3 hsplit
    simp only [normalizeWord]
    rw [if_neg hguard, if_pos hsp, hsplit, if_neg (by simp)]
    rw [List.map_cons, List.map_cons, List.map_cons, List.map_nil, cartesian_triple]

/-- C3 counterexample: a two-word selection whose cleaned form is 121
characters long.  Its word count is 2 — inside [2, 3] — yet
`normalizeWord` rejects it, so "invalid iff the word count is outside
[2, 3]" fails as stated for this selection. -/
def longPhrase : List Char := List.replicate 119 'a' ++ [' ', 'b']

set_option maxRecDepth 8192 in
theorem normalize_multiword_cex :
    ' ' ∈ clean longPhrase
    ∧ (splitWhitespace (clean longPhrase)).length = 2
    ∧ normalizeWord longPhrase = none := by
  refine ⟨by decide, by decide, by decide⟩

/-- C3 witness: a four-word selection is rejected. -/
theorem normalize_multiword_witness : normalizeWord ("a b c d".data) = none :=
  (normalize_multiword_cases ("a b c d".data) (by decide) (by decide)).1.mpr (by decide)

theorem normalizeSingleWord_cons (w : List Char) :
    ∃ t, normalizeSingleWord w = w :: t := ⟨_, rfl⟩

theorem take20_head? {x : List Char} {xs : List (List Char)} :
    ((x :: xs).take 20).head? = some x := rfl

/-- C4 (amended): for every accepted selection, the first candidate is the
cleaned (lowercased, trimmed) selection when it contains no space, and
otherwise the cleaned selection with its whitespace runs collapsed to
single spaces (the whitespace words re-joined); for `ice cream` the first
candidate is exactly `ice cream`. -/
theorem normalize_first_candidate (w : List Char) (L : List (List Char))
    (h : normalizeWord w = some L) :
    (' ' ∉ clean w → L.head? = some (clean w))
    ∧ (' ' ∈ clean w → L.head? = some (joinSp (splitWhitespace (clean w))))
    ∧ ∃ L2, normalizeWord ("ice cream".data) = some L2 ∧
        L2.head? = some ("ice cream".data) := by
  have hguard : ¬(clean w = [] ∨ MAX_SELECTION_LENGTH < (clean w).length) := by
    intro hg
    simp only [normalizeWord] at h
    rw [if_pos hg] at h
    cases h
  refine ⟨?_, ?_, ⟨[("ice cream".data)], by decide, rfl⟩⟩
  · intro hsp
    simp only [normalizeWord] at h
    rw [if_neg hguard, if_neg hsp] at h
    injection h with h
    rw [← h]
    rfl
  · intro hsp
    simp only [normalizeWord] at h
    rw [if_neg hguard, if_pos hsp] at h
    by_cases hwc : (splitWhitespace (clean w)).length < 2 ∨
        3 < (splitWhitespace (clean w)).length
    · rw [if_pos hwc] at h
      cases h
    · rw [if_neg hwc] at h
      injection h with h
      rw [← h]
      push_neg at hwc
      have h23 : (splitWhitespace (clean w)).length = 2 ∨
          (splitWhitespace (clean w)).length = 3 := by omega
      rcases h23 with h2 | h3
      · obtain ⟨w1, w2, hsplit⟩ := List.length_eq_two.mp h2
        rw [hsplit]
        obtain ⟨t1, ht1⟩ := normalizeSingleWord_cons w1
        obtain ⟨t2, ht2⟩ := normalizeSingleWord_cons w2
        rw [List.map_cons, List.map_cons, List.map_nil, cartesian_pair, ht1, ht2,
          List.flatMap_cons, List.map_cons, List.cons_append, take20_head?]
        rfl
      · obtain ⟨w1, w2, w3, hsplit⟩ := List.length_eq_three.mp h3
        rw [hsplit]
        obtain ⟨t1, ht1⟩ := normalizeSingleWord_cons w1
        obtain ⟨t2, ht2⟩ := normalizeSingleWord_cons w2
        obtain ⟨t3, ht3⟩ := normalizeSingleWord_cons w3
        rw [List.map_cons, List.map_cons, List.map_cons, List.map_nil,
          cartesian_triple, ht1, ht2, ht3, List.flatMap_cons, List.flatMap_cons,
          List.map_cons, List.cons_append, List.cons_append, take20_head?]
        rfl

/-- C4 counterexample: for the accepted selection `ice  cream` (double
space) the first candidate is `ice cream`, which differs from the
lowercased-and-trimmed selection, so the claim fails as stated. -/
theorem normalize_first_candidate_cex :
    normalizeWord ("ice  cream".data) = some [("ice cream".data)]
    ∧ ("ice cream".data : List Char) ≠ clean ("ice  cream".data) := by
  refine ⟨by decide, by decide⟩

/-- C4 witness: the single-word selection `cats` keeps its cleaned form as
first candidate. -/
theorem normalize_first_candidate_witness :
    (normalizeSingleWord ("cats".data)).head? = some (clean ("cats".data)) :=
  (normalize_first_candidate ("cats".data) (normalizeSingleWord ("cats".data))
    (by decide)).1 (by decide)

/-- The amended claim's placement rule: mark the first `a`; else the first
`e`; else, when the base contains the substring `ou`, the first `o`; else
the last vowel, scanning from the end. -/
def claimMarkIndex (base : List Char) : Option Nat :=
  if 'a' ∈ base then firstIdx (fun c => c = 'a') base
  else if 'e' ∈ base then firstIdx (fun c => c = 'e') base
  else if containsOU base then firstIdx (fun c => c = 'o') base
  else lastVowelIdx base

/-- The one-character diacritic substitution `toneMarks[vowel][tone-1]`
(identity on characters outside the table). -/
def markChar (c : Char) (t : Nat) : Char :=
  match toneTable c with
  | some row => row.getD (t - 1) ' '
  | none => c

theorem firstIdx_spec {p : Char → Bool} :
    ∀ {l : List Char} {i : Nat}, firstIdx p l = some i → i < l.length := by
  intro l
  induction l with
  | nil => intro i h; cases h
  | cons c rest ih =>
    intro i h
    simp only [firstIdx] at h
    split at h
    · cases h; simp
    · rcases hr : firstIdx p rest with _ | j
      · rw [hr] at h; cases h
      · rw [hr] at h
        injection h with h
        subst h
        simpa using ih hr

theorem lastVowelIdx_spec :
    ∀ {l : List Char} {i : Nat}, lastVowelIdx l = some i → i < l.length := by
  intro l
  induction l with
  | nil => intro i h; cases h
  | cons c rest ih =>
    intro i h
    simp only [lastVowelIdx] at h
    rcases hr : lastVowelIdx rest with _ | j
    · simp only [hr] at h
      by_cases hv : isVowel c = true
      · rw [if_pos hv] at h
        injection h with h
        subst h
        simp
      · rw [if_neg hv] at h
        cases h
    · simp only [hr] at h
      injection h with h
      subst h
      simpa using ih hr

theorem vowelIndexOf_lt {base : List Char} {i : Nat}
    (h : vowelIndexOf base = some i) : i < base.length := by
  unfold vowelIndexOf at h
  by_cases h1 : 'a' ∈ base
  · rw [if_pos h1] at h; exact firstIdx_spec h
  · rw [if_neg h1] at h
    by_cases h2 : 'e' ∈ base
    · rw [if_pos h2] at h; exact firstIdx_spec h
    · rw [if_neg h2] at h
      by_cases h3 : containsOU base = true
      · rw [if_pos h3] at h; exact firstIdx_spec h
      · rw [if_neg h3] at h; exact lastVowelIdx_spec h

theorem take_getD_drop {l : List Char} {i : Nat} (h : i < l.length) :
    l.take i ++ l.getD i ' ' :: l.drop (i + 1) = l := by
  have hg : l.getD i ' ' = l[i] := by
    simp [List.getD_eq_getElem?_getD, List.getElem?_eq_getElem h]
  rw [hg, ← List.drop_eq_getElem_cons h, List.take_append_drop]

theorem splitTone_concat (b : List Char) (dgt : Char) (hb : b ≠ [])
    (hd : isToneDigit dgt = true) :
    splitTone (b ++ [dgt]) = (b, toneVal dgt) := by
  have hlen : 2 ≤ (b ++ [dgt]).length := by
    have h1 : 1 ≤ b.length := List.length_pos.mpr hb
    simp only [List.length_append, List.length_cons, List.length_nil]
    omega
  unfold splitTone
  simp only [List.getLast?_concat]
  rw [if_pos ⟨hlen, hd⟩, List.dropLast_concat]

theorem toneVal_ne_five {dgt : Char} (hd : isToneDigit dgt = true)
    (h5 : dgt ≠ '5') : toneVal dgt ≠ 5 := by
  simp only [isToneDigit, Bool.or_eq_true, beq_iff_eq] at hd
  rcases hd with (((h | h) | h) | h) | h
  · subst h; decide
  · subst h; decide
  · subst h; decide
  · subst h; decide
  · exact absurd h h5

theorem renderSyl_concat (b : List Char) (dgt : Char) (hb : b ≠ [])
    (hdig : isToneDigit dgt = true) (h5 : toneVal dgt ≠ 5) (i : Nat)
    (hi : vowelIndexOf (vSub b) = some i) :
    renderSyl (b ++ [dgt]) =
      (vSub b).take i ++
        markChar ((vSub b).getD i ' ') (toneVal dgt) :: (vSub b).drop (i + 1) := by
  unfold renderSyl
  rw [splitTone_concat b dgt hb hdig]
  dsimp only
  rw [hi]
  dsimp only
  rw [if_neg h5]
  unfold markChar
  rcases htt : toneTable ((vSub b).getD i ' ') with _ | row
  · simp only [htt]
    have hlen2 : i < (vSub b).length := vowelIndexOf_lt hi
    exact (take_getD_drop hlen2).symm
  · simp only [htt]

/-- C6 (amended in branch (3): the diacritic goes on the first `o`, which
coincides with the `o` of the substring `ou` whenever no earlier `o`
precedes it): for every syllable `base ++ digit` with tone digit 1–4
whose v-substituted base contains a vowel, the diacritic is placed by the
strict priority first-`a` / first-`e` / (if `ou` occurs) first-`o` /
last-vowel, and `renderTone` maps `liu2 ↦ liú`, `gui4 ↦ guì`,
`gou3 ↦ gǒu`, `nv3 ↦ nǚ`. -/
theorem tone_mark_placement (b : List Char) (dgt : Char) (hb : b ≠ [])
    (hsp : ' ' ∉ b) (hdig : isToneDigit dgt = true) (h5 : dgt ≠ '5') (i : Nat)
    (hi : claimMarkIndex (vSub b) = some i) :
    numberedToToneMarks (b ++ [dgt]) =
      (vSub b).take i ++
        markChar ((vSub b).getD i ' ') (toneVal dgt) :: (vSub b).drop (i + 1)
    ∧ numberedToToneMarks ("liu2".data) = "liú".data
    ∧ numberedToToneMarks ("gui4".data) = "guì".data
    ∧ numberedToToneMarks ("gou3".data) = "gǒu".data
    ∧ numberedToToneMarks ("nv3".data) = "nǚ".data := by
  refine ⟨?_, by decide, by decide, by decide, by decide⟩
  have hsp2 : ' ' ∉ b ++ [dgt] := by
    intro hm
    rcases List.mem_append.mp hm with hm | hm
    · exact hsp hm
    · simp only [List.mem_singleton] at hm
      subst hm
      simp [isToneDigit] at hdig
  rw [numberedToToneMarks_single hsp2]
  exact renderSyl_concat b dgt hb hdig (toneVal_ne_five hdig h5) i hi

/-- C6 counterexample: for the syllable `oou2` the base contains the
substring `ou` (and no `a`/`e`), yet the diacritic lands on the first
`o` — producing `óou` — not on the `o` of the substring `ou`, which would
produce `oóu`.  The claim's branch (3) therefore fails as stated. -/
theorem tone_mark_ou_cex :
    numberedToToneMarks ("oou2".data) = "óou".data
    ∧ ("óou".data : List Char) ≠ "oóu".data
    ∧ containsOU (vSub ("oou".data)) = true
    ∧ 'a' ∉ vSub ("oou".data) ∧ 'e' ∉ vSub ("oou".data) := by
  refine ⟨by decide, by decide, by decide, by decide, by decide⟩

/-- C6 witness: the placement rule instantiated at `liu` + tone 2 (the
last-vowel branch, index 2). -/
theorem tone_mark_placement_witness :
    numberedToToneMarks ("liu".data ++ ['2']) =
      (vSub ("liu".data)).take 2 ++
        markChar ((vSub ("liu".data)).getD 2 ' ') (toneVal '2') ::
          (vSub ("liu".data)).drop 3 :=
  (tone_mark_placement ("liu".data) '2' (by decide) (by decide) (by decide)
    (by decide) 2 (by decide)).1

/-- Two entries count as distinct for deduplication unless both their
characters and their pronunciation agree. -/
def entryDistinct (a b : Entry) : Prop := ¬(a.s = b.s ∧ a.p = b.p)

theorem findKey_mem {d : Index} {k : Key} {l : List Entry}
    (h : findKey d k = some l) : ∃ p ∈ d, p.2 = l := by
  unfold findKey at h
  rcases hf : d.find? (fun p => p.1 == k) with _ | pr
  · rw [hf] at h; cases h
  · rw [hf] at h
    injection h with h
    exact ⟨pr, List.mem_of_find?_eq_some hf, h⟩

theorem findKey_map_rank (d : Index) (k : Key) :
    findKey (d.map (fun p => (p.1, rankEntries p.2))) k =
      (findKey d k).map rankEntries := by
  induction d with
  | nil => rfl
  | cons q rest ih =>
    rcases q with ⟨k0, l0⟩
    by_cases hk : (k0 == k) = true
    · simp [findKey, List.find?_cons, hk]
    · simp only [findKey, List.map_cons, List.find?_cons] at ih ⊢
      simp only [hk]
      exact ih

theorem pushEntry_wf (k : Key) (e : Entry) :
    ∀ d : Index, (∀ p ∈ d, p.2 ≠ [] ∧ p.2.Pairwise entryDistinct) →
      ∀ p ∈ pushEntry d k e, p.2 ≠ [] ∧ p.2.Pairwise entryDistinct := by
  intro d
  induction d with
  | nil =>
    intro _ p hp
    simp only [pushEntry, List.mem_singleton] at hp
    subst hp
    exact ⟨by simp, by simp⟩
  | cons q rest ih =>
    rcases q with ⟨k0, l0⟩
    intro hwf p hp
    simp only [pushEntry] at hp
    by_cases hk : k0 = k
    · rw [if_pos hk] at hp
      by_cases hdup : l0.any (fun x => x.s == e.s && x.p == e.p) = true
      · rw [if_pos hdup] at hp
        exact hwf p hp
      · rw [if_neg hdup] at hp
        rcases List.mem_cons.mp hp with hp1 | hp1
        · subst hp1
          have hw := hwf (k0, l0) (by simp)
          refine ⟨by simp, ?_⟩
          rw [List.pairwise_append]
          refine ⟨hw.2, by simp, ?_⟩
          intro a ha b hb
          simp only [List.mem_singleton] at hb
          subst hb
          intro hcon
          apply hdup
          rw [List.any_eq_true]
          exact ⟨a, ha, by simp [hcon.1, hcon.2]⟩
        · exact hwf p (List.mem_cons_of_mem _ hp1)
    · rw [if_neg hk] at hp
      rcases List.mem_cons.mp hp with hp1 | hp1
      · subst hp1
        exact hwf (k0, l0) (by simp)
      · exact ih (fun q hq => hwf q (List.mem_cons_of_mem _ hq)) p hp1

theorem buildIndex_wf (ins : List (Key × Entry)) :
    ∀ p ∈ buildIndex ins, p.2 ≠ [] ∧ p.2.Pairwise entryDistinct := by
  unfold buildIndex
  suffices h : ∀ d : Index, (∀ p ∈ d, p.2 ≠ [] ∧ p.2.Pairwise entryDistinct) →
      ∀ p ∈ ins.foldl (fun d q => pushEntry d q.1 q.2) d,
        p.2 ≠ [] ∧ p.2.Pairwise entryDistinct by
    exact h [] (by simp)
  induction ins with
  | nil =>
    intro d hd
    simpa using hd
  | cons q rest ih =>
    intro d hd
    simp only [List.foldl_cons]
    exact ih _ (pushEntry_wf q.1 q.2 d hd)

theorem rankEntries_wf {l : List Entry}
    (h : l ≠ [] ∧ l.Pairwise entryDistinct) :
    rankEntries l ≠ [] ∧ (rankEntries l).length ≤ 10 ∧
      (rankEntries l).Pairwise entryDistinct := by
  have hperm : List.Perm (l.mergeSort entryLE) l := List.mergeSort_perm l entryLE
  have hsym : ∀ {x y : Entry}, entryDistinct x y → entryDistinct y x := by
    intro x y hxy hcon
    exact hxy ⟨hcon.1.symm, hcon.2.symm⟩
  refine ⟨?_, ?_, ?_⟩
  · have hlpos : 0 < l.length := List.length_pos.mpr h.1
    intro hnil
    have h0 := congrArg List.length hnil
    simp only [rankEntries, List.length_take, hperm.length_eq, List.length_nil] at h0
    omega
  · unfold rankEntries
    rw [List.length_take]
    omega
  · have hp : (l.mergeSort entryLE).Pairwise entryDistinct :=
      (List.Perm.pairwise_iff hsym hperm).mpr h.2
    exact hp.sublist (List.take_sublist _ _)

theorem pushEntry_skip :
    ∀ (d : Index) (k : Key) (e : Entry),
      ((findKey d k).getD []).any (fun x => x.s == e.s && x.p == e.p) = true →
      pushEntry d k e = d := by
  intro d
  induction d with
  | nil =>
    intro k e h
    simp only [findKey, List.find?_nil, Option.map_none', Option.getD_none,
      List.any_nil] at h
    exact absurd h (by decide)
  | cons q rest ih =>
    rcases q with ⟨k0, l0⟩
    intro k e h
    by_cases hk : (k0 == k) = true
    · have hfk : findKey ((k0, l0) :: rest) k = some l0 := by
        unfold findKey
        rw [List.find?_cons]
        simp [hk]
      rw [hfk] at h
      simp only [Option.getD_some] at h
      simp only [pushEntry]
      rw [if_pos (by simpa using hk), if_pos h]
    · have hfk : findKey ((k0, l0) :: rest) k = findKey rest k := by
        unfold findKey
        rw [List.find?_cons]
        simp [hk]
      rw [hfk] at h
      simp only [pushEntry]
      rw [if_neg (fun hkk => by simp [hkk] at hk)]
      rw [ih k e h]

/-- C5: in the compiled index of any insertion stream (every word/phrase
key of every parsed lexicon line), each stored key maps to a non-empty
list of at most 10 entries with pairwise-distinct
`(characters, pronunciation)` pairs; and an append whose
`(characters, pronunciation)` pair already occurs in the key's list
leaves the dictionary unchanged, keeping the first-seen gloss set. -/
theorem compile_index_invariants (ins : List (Key × Entry)) (k : Key)
    (l : List Entry) (h : findKey (compileIndex ins) k = some l)
    (d : Index) (k2 : Key) (e : Entry)
    (hdup : ((findKey d k2).getD []).any (fun x => x.s == e.s && x.p == e.p) = true) :
    (l ≠ [] ∧ l.length ≤ 10 ∧ l.Pairwise entryDistinct)
    ∧ pushEntry d k2 e = d := by
  refine ⟨?_, pushEntry_skip d k2 e hdup⟩
  unfold compileIndex at h
  rw [findKey_map_rank] at h
  rcases hf : findKey (buildIndex ins) k with _ | l0
  · rw [hf] at h; cases h
  · rw [hf] at h
    injection h with h
    subst h
    obtain ⟨pr, hpr, hpr2⟩ := findKey_mem hf
    have hw := buildIndex_wf ins pr hpr
    rw [hpr2] at hw
    exact rankEntries_wf hw

def witEntry : Entry := ⟨"猫", "māo", ["cat"]⟩

def witIns : List (Key × Entry) := [("cat".data, witEntry)]

def witDict : Index := [("x".data, [witEntry])]

/-- C5 witness: one inserted entry yields a singleton well-formed list,
and re-inserting the same (characters, pronunciation) pair with a new
gloss set is skipped. -/
theorem compile_index_invariants_witness :
    (([witEntry] : List Entry) ≠ [] ∧ ([witEntry] : List Entry).length ≤ 10 ∧
      ([witEntry] : List Entry).Pairwise entryDistinct)
    ∧ pushEntry witDict ("x".data) ⟨"猫", "māo", ["feline"]⟩ = witDict :=
  compile_index_invariants witIns ("cat".data) [witEntry]
    (by simp [witIns, compileIndex, buildIndex, pushEntry, rankEntries, findKey,
      List.mergeSort_singleton])
    witDict ("x".data) ⟨"猫", "māo", ["feline"]⟩ (by decide)

theorem entryLE_trans : ∀ a b c : Entry,
    entryLE a b = true → entryLE b c = true → entryLE a c = true := by
  intro a b c
  simp only [entryLE, tripleLE, decide_eq_true_eq]
  omega

theorem entryLE_total : ∀ a b : Entry, (entryLE a b || entryLE b a) = true := by
  intro a b
  simp only [entryLE, tripleLE, Bool.or_eq_true, decide_eq_true_eq]
  omega

/-- C2 (amended: the comparator measures string lengths the way JS does,
in UTF-16 code units, so a single astral character counts as length 2):
every ranked entry list is sorted ascending by the composite key
`(commonPriority, lengthClass, totalGlossLength)`; ties keep original
insertion order (each equal-key run of the input survives as a prefix,
in order, of the corresponding run of the output); and in particular
curated common-word entries always sort before non-curated ones. -/
theorem rank_sorted_stable (l : List Entry) :
    (rankEntries l).Pairwise (fun a b => entryLE a b = true)
    ∧ (∀ k : Nat × Nat × Nat, ∃ t,
        l.filter (fun e => decide (rankKey e = k)) =
          (rankEntries l).filter (fun e => decide (rankKey e = k)) ++ t)
    ∧ (rankEntries l).Pairwise (fun a b => commonPriority a ≤ commonPriority b) := by
  have hsorted : (l.mergeSort entryLE).Pairwise (fun a b => entryLE a b = true) :=
    List.sorted_mergeSort entryLE_trans entryLE_total l
  have hfirst : (rankEntries l).Pairwise (fun a b => entryLE a b = true) :=
    List.Pairwise.sublist (List.take_sublist _ _) hsorted
  refine ⟨hfirst, ?_, ?_⟩
  · intro k
    have hpw : (l.filter (fun e => decide (rankKey e = k))).Pairwise
        (fun a b => entryLE a b = true) := by
      apply List.pairwise_of_forall_mem_list
      intro a ha b hb
      have ha2 := (List.mem_filter.mp ha).2
      have hb2 := (List.mem_filter.mp hb).2
      simp only [decide_eq_true_eq] at ha2 hb2
      unfold entryLE
      rw [ha2, hb2]
      simp [tripleLE]
    have hsub : List.Sublist (l.filter (fun e => decide (rankKey e = k))) l :=
      List.filter_sublist l
    have h1 := List.sublist_mergeSort entryLE_trans entryLE_total hpw hsub
    have h2 := h1.filter (fun e => decide (rankKey e = k))
    rw [List.filter_eq_self.mpr (fun a ha => (List.mem_filter.mp ha).2)] at h2
    have h3 : List.Perm
        ((l.mergeSort entryLE).filter (fun e => decide (rankKey e = k)))
        (l.filter (fun e => decide (rankKey e = k))) :=
      (List.mergeSort_perm l entryLE).filter _
    have h4 : l.filter (fun e => decide (rankKey e = k)) =
        (l.mergeSort entryLE).filter (fun e => decide (rankKey e = k)) :=
      h2.eq_of_length h3.length_eq.symm
    refine ⟨((l.mergeSort entryLE).drop 10).filter (fun e => decide (rankKey e = k)), ?_⟩
    rw [h4]
    simp only [rankEntries]
    conv_lhs => rw [← List.take_append_drop 10 (l.mergeSort entryLE)]
    rw [List.filter_append]
  · refine List.Pairwise.imp ?_ hfirst
    intro a b hab
    simp only [entryLE, tripleLE, rankKey, decide_eq_true_eq] at hab
    rcases hab with h | ⟨h, _⟩
    · exact Nat.le_of_lt h
    · exact Nat.le_of_eq h

/-- The claim's reading of the length class, counting code points. -/
def cpLengthClass (e : Entry) : Nat :=
  if e.s.length = 2 then 0 else if e.s.length = 1 then 1 else 2

/-- The claim's composite key with code-point length classes. -/
def cpKey (e : Entry) : Nat × Nat × Nat :=
  (commonPriority e, cpLengthClass e, totalGlossLength e)

/-- A one-code-point astral-plane character word (JS length 2). -/
def entryAstral : Entry := ⟨"𠜎", "r1", ["a"]⟩

/-- A two-code-point BMP word (JS length 2). -/
def entryTwoChar : Entry := ⟨"日月", "r2", ["ab"]⟩

/-- C2 counterexample: under one key holding an astral single-character
entry and a two-character entry, the compiler (comparing JS UTF-16
lengths) keeps the astral entry first, but that order is strictly
descending in the claim's code-point composite key — so "sorted ascending
by (commonPriority, lengthClass, totalGlossLength) with lengthClass
measured in code points" fails as stated. -/
theorem rank_codepoint_cex :
    rankEntries [entryAstral, entryTwoChar] = [entryAstral, entryTwoChar]
    ∧ tripleLE (cpKey entryAstral) (cpKey entryTwoChar) = false
    ∧ entryAstral.s.length = 1 ∧ jsLen entryAstral.s = 2 := by
  refine ⟨?_, by decide, by decide, by decide⟩
  unfold rankEntries
  rw [List.mergeSort_of_sorted (by decide)]
  decide

end Mandopop
